import Mathlib

/-
Verification of the motion-law generator (`calculateMotion` in
`src/utils/motionMath.ts`) and the oscillating-roller reference-angle solve
(`drawGhostFollower` in the cam visualizer) of the interactive cam design
repository.

The TypeScript engine works on IEEE doubles; here all numeric values are
embedded as exact reals.  The sampling `for` loop
(`for (let theta = 0; theta <= 360 + epsilon; theta += stepSize)`) is embedded
as a fuel-indexed recursion `runLoop` that also reports whether the loop's exit
test ever succeeded, so both termination and non-termination of the source loop
are statable.  JavaScript's `Number(x) || 0` field coercion is embedded via a
value type `JSVal` distinguishing finite numeric values from NaN-producing
ones (non-numeric strings, missing fields, NaN).
-/

/-- The `MotionType` enum of `src/types.ts`. -/
inductive MotionType where
  | dwell
  | uniform
  | parabolic
  | harmonic
  | cycloidal
  | polynomial345
  deriving DecidableEq

/-- A segment field of TypeScript type `number | string`, as seen by the
coercion `Number(x) || 0`: either a value whose numeric conversion is a finite
number, or one whose conversion is NaN (non-numeric string, missing field,
NaN itself). -/
inductive JSVal where
  | num (r : ℝ)
  | nan

/-- The coercion `Number(x) || 0` performed by `calculateMotion` on
`seg.duration` and `seg.deltaLift`: NaN (falsy) becomes 0, a finite number is
kept (0 maps to 0 either way). -/
noncomputable def toNumOr0 : JSVal → ℝ
  | JSVal.num r => r
  | JSVal.nan => 0

/-- The `MotionSegment` interface of `src/types.ts`. -/
structure MotionSegment where
  id : String
  type : MotionType
  duration : JSVal
  deltaLift : JSVal

/-- The `SimulationPoint` interface of `src/types.ts`. -/
structure SimulationPoint where
  theta : ℝ
  s : ℝ
  v : ℝ
  a : ℝ
  j : ℝ
  x : ℝ
  y : ℝ
  pressureAngle : ℝ
  radiusOfCurvature : ℝ

/-- One element of the `processedSegments` array built by `calculateMotion`:
the input segment enriched with its coerced values and cumulative
angle/lift boundaries. -/
structure ProcSeg where
  type : MotionType
  durationVal : ℝ
  deltaLiftVal : ℝ
  startAngle : ℝ
  endAngle : ℝ
  startLift : ℝ
  endLift : ℝ

/-- The motion-law kernel `getMotionFactors` of `src/utils/motionMath.ts`:
normalized displacement, velocity, acceleration and jerk factors for
normalized time `u`. -/
noncomputable def getMotionFactors (t : MotionType) (u : ℝ) : ℝ × ℝ × ℝ × ℝ :=
  match t with
  | MotionType.dwell => (0, 0, 0, 0)
  | MotionType.uniform => (u, 1, 0, 0)
  | MotionType.parabolic =>
      if u ≤ 1 / 2 then
        (2 * u * u, 4 * u, 4, 0)
      else
        (1 - 2 * (1 - u) ^ 2, 4 * (1 - u), -4, 0)
  | MotionType.harmonic =>
      (1 / 2 * (1 - Real.cos (Real.pi * u)),
       1 / 2 * Real.pi * Real.sin (Real.pi * u),
       1 / 2 * Real.pi ^ 2 * Real.cos (Real.pi * u),
       -(1 / 2 * Real.pi ^ 3 * Real.sin (Real.pi * u)))
  | MotionType.cycloidal =>
      (u - 1 / (2 * Real.pi) * Real.sin (2 * Real.pi * u),
       1 - Real.cos (2 * Real.pi * u),
       2 * Real.pi * Real.sin (2 * Real.pi * u),
       4 * Real.pi ^ 2 * Real.cos (2 * Real.pi * u))
  | MotionType.polynomial345 =>
      (10 * u ^ 3 - 15 * u ^ 4 + 6 * u ^ 5,
       30 * u ^ 2 - 60 * u ^ 3 + 30 * u ^ 4,
       60 * u - 180 * u ^ 2 + 120 * u ^ 3,
       60 - 360 * u + 360 * u ^ 2)

/-- The body of `segments.map(...)` in `calculateMotion`, threading the running
sums `cumulativeAngle` and `cumulativeLift`. -/
noncomputable def processFrom : List MotionSegment → ℝ → ℝ → List ProcSeg
  | [], _, _ => []
  | seg :: rest, cumAngle, cumLift =>
      let d := toNumOr0 seg.duration
      let dl := toNumOr0 seg.deltaLift
      { type := seg.type
        durationVal := d
        deltaLiftVal := dl
        startAngle := cumAngle
        endAngle := cumAngle + d
        startLift := cumLift
        endLift := cumLift + dl } :: processFrom rest (cumAngle + d) (cumLift + dl)

/-- The `processedSegments` array of `calculateMotion` (running sums start
at 0). -/
noncomputable def processSegments (segs : List MotionSegment) : List ProcSeg :=
  processFrom segs 0 0

/-- `finalLift`: `endLift` of the last processed segment, 0 for an empty
list. -/
noncomputable def finalLiftOf (ps : List ProcSeg) : ℝ :=
  match ps.getLast? with
  | some q => q.endLift
  | none => 0

/-- End angle of the last processed segment, 0 for an empty list. -/
noncomputable def lastEndOf (ps : List ProcSeg) : ℝ :=
  match ps.getLast? with
  | some q => q.endAngle
  | none => 0

/-- The tolerance `epsilon = 1e-10` of `calculateMotion`. -/
noncomputable def epsilonR : ℝ := 1 / 10 ^ 10

/-- The inner `while` loop of `calculateMotion`: advance the segment cursor
past every segment whose `endAngle + epsilon` is exceeded by the clamped
angle. -/
noncomputable def advanceCursor (segs : List ProcSeg) (ct : ℝ) (idx : ℕ) : ℕ :=
  if h : idx < segs.length then
    if (segs.get ⟨idx, h⟩).endAngle + epsilonR < ct then
      advanceCursor segs ct (idx + 1)
    else idx
  else idx
termination_by segs.length - idx
decreasing_by simp_wf; omega

/-- The point pushed by one iteration of the sampling loop: the degenerate
tail point when the cursor has run off the segment list, otherwise the
kinematic point of the active segment. -/
noncomputable def mkPoint (segs : List ProcSeg) (finalLift : ℝ) (idx : ℕ)
    (ct : ℝ) : SimulationPoint :=
  if h : idx < segs.length then
    let seg := segs.get ⟨idx, h⟩
    let beta := seg.durationVal
    let hLift := seg.deltaLiftVal
    let u0 : ℝ := if epsilonR < beta then (ct - seg.startAngle) / beta else 0
    let u := max 0 (min 1 u0)
    let f := getMotionFactors seg.type u
    let betaRad := beta * (Real.pi / 180)
    { theta := ct
      s := seg.startLift + hLift * f.1
      v := if betaRad < epsilonR then 0 else hLift / betaRad * f.2.1
      a := if betaRad < epsilonR then 0 else hLift / (betaRad * betaRad) * f.2.2.1
      j := if betaRad < epsilonR then 0 else hLift / betaRad ^ 3 * f.2.2.2
      x := 0
      y := 0
      pressureAngle := 0
      radiusOfCurvature := 0 }
  else
    { theta := ct, s := finalLift, v := 0, a := 0, j := 0,
      x := 0, y := 0, pressureAngle := 0, radiusOfCurvature := 0 }

/-- The sampling `for` loop of `calculateMotion`, with explicit fuel.  The
boolean is `true` when the loop's exit test `theta > 360 + epsilon` succeeded
within the given fuel, i.e. when the source loop actually terminates at this
point. -/
noncomputable def runLoop (segs : List ProcSeg) (finalLift : ℝ) (step : ℝ) :
    ℕ → ℝ → ℕ → List SimulationPoint × Bool
  | 0, _, _ => ([], false)
  | fuel + 1, theta, idx =>
      if theta ≤ 360 + epsilonR then
        let ct := min theta 360
        let idx2 := advanceCursor segs ct idx
        let rest := runLoop segs finalLift step fuel (theta + step) idx2
        (mkPoint segs finalLift idx2 ct :: rest.1, rest.2)
      else ([], true)

/-- Fuel sufficient for the sampling loop when `step > 0`: one more than the
number of sample angles. -/
noncomputable def calcFuel (step : ℝ) : ℕ :=
  (Int.floor ((360 + epsilonR) / step)).toNat + 2

/-- `calculateMotion` of `src/utils/motionMath.ts` (the processed-segments
version): sample the piecewise motion law from 0 to 360 + epsilon at the given
step. -/
noncomputable def calculateMotion (segs : List MotionSegment) (step : ℝ) :
    List SimulationPoint :=
  (runLoop (processSegments segs) (finalLiftOf (processSegments segs)) step
    (calcFuel step) 0 0).1

/-- The sampling loop of `calculateMotion` terminates: for some fuel the exit
test succeeds. -/
def calcTerminates (segs : List MotionSegment) (step : ℝ) : Prop :=
  ∃ fuel, (runLoop (processSegments segs) (finalLiftOf (processSegments segs))
    step fuel 0 0).2 = true

/-- The sequence of (clamped) sample angles visited by the loop. -/
noncomputable def thetaList (step : ℝ) : ℕ → ℝ → List ℝ
  | 0, _ => []
  | fuel + 1, theta =>
      if theta ≤ 360 + epsilonR then
        min theta 360 :: thetaList step fuel (theta + step)
      else []

/-- Number of sample angles left from a given loop angle (for `step > 0`). -/
noncomputable def sampleCount (step theta : ℝ) : ℕ :=
  if theta ≤ 360 + epsilonR then
    (Int.floor ((360 + epsilonR - theta) / step)).toNat + 1
  else 0

/-- The reference half-angle of the oscillating-roller follower, solved from
the closing triangle at zero cam angle (`drawGhostFollower` in the cam
visualizer): the `acos` argument is clamped to the interval from -1 to 1
before evaluation. -/
noncomputable def oscRollerPhi0 (r1 r3 rb r0 : ℝ) : ℝ :=
  Real.arccos (max (-1) (min 1
    ((r1 ^ 2 + r3 ^ 2 - (rb + r0) ^ 2) / (2 * r1 * r3))))

/-- A heap of caller-owned `MotionSegment` objects; the address of an object
is its index. -/
structure SegHeap where
  cells : List MotionSegment

/-- Field read on a heap cell. -/
def readCell (h : SegHeap) (r : ℕ) : Option MotionSegment :=
  h.cells.get? r

/-- Default segment used when dereferencing a dangling reference (cannot occur
for the caller's own array, but keeps the embedding total). -/
def defaultSeg : MotionSegment :=
  { id := "", type := MotionType.dwell, duration := JSVal.nan,
    deltaLift := JSVal.nan }

/-- State-passing embedding of `calculateMotion` run against the caller's
heap: the function only reads the referenced segment objects (`segments.map`
with an object-spread copy) and builds fresh processed records, so the heap
passes through untouched. -/
noncomputable def calculateMotionSt (h : SegHeap) (refs : List ℕ) (step : ℝ) :
    SegHeap × List SimulationPoint :=
  let segVals := refs.map fun r => (readCell h r).getD defaultSeg
  (h, calculateMotion segVals step)

/-- A zero-duration dwell segment, used to evaluate the engine on a cycle
that covers none of the 360 degrees. -/
noncomputable def dwellSeg : MotionSegment :=
  { id := "d1", type := MotionType.dwell, duration := JSVal.num 0,
    deltaLift := JSVal.num 0 }

/-- A segment whose two numeric fields are NaN-producing values. -/
def nanSeg : MotionSegment :=
  { id := "n1", type := MotionType.dwell, duration := JSVal.nan,
    deltaLift := JSVal.nan }

/-- A processed full-circle uniform segment of unit lift. -/
noncomputable def uniSeg : ProcSeg :=
  { type := MotionType.uniform, durationVal := 360, deltaLiftVal := 1,
    startAngle := 0, endAngle := 360, startLift := 0, endLift := 1 }

/-- The processed form of `dwellSeg`. -/
noncomputable def dwellProc : ProcSeg :=
  { type := MotionType.dwell, durationVal := 0, deltaLiftVal := 0,
    startAngle := 0, endAngle := 0, startLift := 0, endLift := 0 }

/-! Helper lemmas. -/

theorem epsilonR_pos : 0 < epsilonR := by
  unfold epsilonR; norm_num

theorem mkPoint_theta (segs : List ProcSeg) (fl : ℝ) (idx : ℕ) (ct : ℝ) :
    (mkPoint segs fl idx ct).theta = ct := by
  unfold mkPoint
  split <;> rfl

theorem mkPoint_geom (segs : List ProcSeg) (fl : ℝ) (idx : ℕ) (ct : ℝ) :
    (mkPoint segs fl idx ct).x = 0 ∧ (mkPoint segs fl idx ct).y = 0 ∧
    (mkPoint segs fl idx ct).pressureAngle = 0 ∧
    (mkPoint segs fl idx ct).radiusOfCurvature = 0 := by
  unfold mkPoint
  split <;> exact ⟨rfl, rfl, rfl, rfl⟩

theorem runLoop_map_theta (segs : List ProcSeg) (fl step : ℝ) :
    ∀ (fuel : ℕ) (theta : ℝ) (idx : ℕ),
      ((runLoop segs fl step fuel theta idx).1).map SimulationPoint.theta =
        thetaList step fuel theta := by
  intro fuel
  induction fuel with
  | zero => intro theta idx; rfl
  | succ f ih =>
      intro theta idx
      rw [runLoop, thetaList]
      by_cases h : theta ≤ 360 + epsilonR
      · rw [if_pos h, if_pos h]
        simp only [List.map_cons, mkPoint_theta, ih]
      · rw [if_neg h, if_neg h]
        rfl

theorem sampleCount_succ {step : ℝ} (hs : 0 < step) {theta : ℝ}
    (h : theta ≤ 360 + epsilonR) :
    sampleCount step theta = sampleCount step (theta + step) + 1 := by
  unfold sampleCount
  rw [if_pos h]
  by_cases h2 : theta + step ≤ 360 + epsilonR
  · rw [if_pos h2]
    have hx : (1 : ℝ) ≤ (360 + epsilonR - theta) / step := by
      rw [le_div_iff₀ hs]
      linarith
    have hfl : (1 : ℤ) ≤ Int.floor ((360 + epsilonR - theta) / step) := by
      exact_mod_cast Int.le_floor.mpr (by exact_mod_cast hx)
    have hrw : (360 + epsilonR - (theta + step)) / step =
        (360 + epsilonR - theta) / step - 1 := by
      have hstep : (360 + epsilonR - (theta + step)) =
          (360 + epsilonR - theta) - step := by ring
      rw [hstep, sub_div, div_self hs.ne']
    rw [hrw, Int.floor_sub_one]
    omega
  · rw [if_neg h2]
    have h0 : (0 : ℝ) ≤ (360 + epsilonR - theta) / step :=
      div_nonneg (by linarith) hs.le
    have h1 : (360 + epsilonR - theta) / step < 1 := by
      rw [div_lt_one hs]
      linarith [not_le.mp h2]
    have : Int.floor ((360 + epsilonR - theta) / step) = 0 :=
      Int.floor_eq_zero_iff.mpr ⟨h0, h1⟩
    rw [this]
    rfl

theorem thetaList_length {step : ℝ} (hs : 0 < step) :
    ∀ (fuel : ℕ) (theta : ℝ),
      (thetaList step fuel theta).length = min fuel (sampleCount step theta) := by
  intro fuel
  induction fuel with
  | zero => intro theta; simp [thetaList]
  | succ f ih =>
      intro theta
      rw [thetaList]
      by_cases h : theta ≤ 360 + epsilonR
      · rw [if_pos h]
        rw [List.length_cons, ih, sampleCount_succ hs h, Nat.succ_min_succ]
      · rw [if_neg h]
        have : sampleCount step theta = 0 := by unfold sampleCount; rw [if_neg h]
        simp [this]

theorem thetaList_chain {step : ℝ} (he : epsilonR < step) :
    ∀ (fuel : ℕ) (theta : ℝ),
      List.Chain' (· < ·) (thetaList step fuel theta) := by
  intro fuel
  induction fuel with
  | zero => intro theta; simp [thetaList]
  | succ f ih =>
      intro theta
      rw [thetaList]
      by_cases h : theta ≤ 360 + epsilonR
      · rw [if_pos h]
        refine List.chain'_cons'.mpr ⟨?_, ih (theta + step)⟩
        intro y hy
        cases f with
        | zero => simp [thetaList] at hy
        | succ g =>
            rw [thetaList] at hy
            by_cases h2 : theta + step ≤ 360 + epsilonR
            · rw [if_pos h2] at hy
              simp only [List.head?_cons, Option.mem_def, Option.some_inj] at hy
              subst hy
              have hlt : theta < 360 := by linarith
              rw [min_eq_left hlt.le]
              exact lt_min (by linarith [epsilonR_pos]) hlt
            · rw [if_neg h2] at hy
              simp at hy
      · rw [if_neg h]; simp

theorem thetaList_range {step : ℝ} (hs : 0 < step) :
    ∀ (fuel : ℕ) (theta : ℝ), 0 ≤ theta →
      ∀ x ∈ thetaList step fuel theta, 0 ≤ x ∧ x ≤ 360 := by
  intro fuel
  induction fuel with
  | zero => intro theta _ x hx; simp [thetaList] at hx
  | succ f ih =>
      intro theta htheta x hx
      rw [thetaList] at hx
      by_cases h : theta ≤ 360 + epsilonR
      · rw [if_pos h] at hx
        rcases List.mem_cons.mp hx with hx | hx
        · subst hx
          exact ⟨le_min htheta (by norm_num), min_le_right _ _⟩
        · exact ih (theta + step) (by linarith) x hx
      · rw [if_neg h] at hx
        simp at hx

theorem advanceCursor_le (segs : List ProcSeg) (ct : ℝ) :
    ∀ idx, idx ≤ segs.length → advanceCursor segs ct idx ≤ segs.length := by
  intro idx
  induction idx using advanceCursor.induct segs ct with
  | case1 idx h hcmp ih =>
      intro _
      rw [advanceCursor, dif_pos h, if_pos hcmp]
      exact ih h
  | case2 idx h hcmp =>
      intro hle
      rw [advanceCursor, dif_pos h, if_neg hcmp]
      exact hle
  | case3 idx h =>
      intro hle
      rw [advanceCursor, dif_neg h]
      exact hle

theorem advanceCursor_runs_off (segs : List ProcSeg) (ct : ℝ)
    (hall : ∀ q ∈ segs, q.endAngle + epsilonR < ct) :
    ∀ idx, idx ≤ segs.length → advanceCursor segs ct idx = segs.length := by
  intro idx
  induction idx using advanceCursor.induct segs ct with
  | case1 idx h hcmp ih =>
      intro _
      rw [advanceCursor, dif_pos h, if_pos hcmp]
      exact ih h
  | case2 idx h hcmp =>
      intro _
      exact absurd (hall _ (segs.get_mem _ _)) hcmp
  | case3 idx h =>
      intro hle
      rw [advanceCursor, dif_neg h]
      omega

theorem mem_runLoop (segs : List ProcSeg) (fl step : ℝ) :
    ∀ (fuel : ℕ) (theta : ℝ) (idx : ℕ), idx ≤ segs.length →
      ∀ p ∈ (runLoop segs fl step fuel theta idx).1,
        ∃ i ≤ segs.length,
          p = mkPoint segs fl (advanceCursor segs p.theta i) p.theta := by
  intro fuel
  induction fuel with
  | zero => intro theta idx _ p hp; simp [runLoop] at hp
  | succ f ih =>
      intro theta idx hidx p hp
      rw [runLoop] at hp
      by_cases h : theta ≤ 360 + epsilonR
      · rw [if_pos h] at hp
        rcases List.mem_cons.mp hp with hp | hp
        · refine ⟨idx, hidx, ?_⟩
          rw [hp, mkPoint_theta]
        · exact ih (theta + step) (advanceCursor segs (min theta 360) idx)
            (advanceCursor_le segs _ idx hidx) p hp
      · rw [if_neg h] at hp
        simp at hp

theorem runLoop_flag_true (segs : List ProcSeg) (fl step : ℝ) (hs : 0 < step) :
    ∀ (fuel : ℕ) (theta : ℝ) (idx : ℕ), sampleCount step theta < fuel →
      (runLoop segs fl step fuel theta idx).2 = true := by
  intro fuel
  induction fuel with
  | zero => intro theta idx hlt; omega
  | succ f ih =>
      intro theta idx hlt
      rw [runLoop]
      by_cases h : theta ≤ 360 + epsilonR
      · rw [if_pos h]
        exact ih (theta + step) _ (by
          have := sampleCount_succ hs h
          omega)
      · rw [if_neg h]

theorem runLoop_flag_false (segs : List ProcSeg) (fl step : ℝ) (hs : step ≤ 0) :
    ∀ (fuel : ℕ) (theta : ℝ) (idx : ℕ), theta ≤ 360 + epsilonR →
      (runLoop segs fl step fuel theta idx).2 = false := by
  intro fuel
  induction fuel with
  | zero => intro theta idx _; rfl
  | succ f ih =>
      intro theta idx h
      rw [runLoop, if_pos h]
      exact ih (theta + step) _ (by linarith)

theorem processFrom_length :
    ∀ (segs : List MotionSegment) (cumA cumL : ℝ),
      (processFrom segs cumA cumL).length = segs.length := by
  intro segs
  induction segs with
  | nil => intro cumA cumL; rfl
  | cons seg rest ih =>
      intro cumA cumL
      rw [processFrom]
      simp only [List.length_cons, ih]

theorem durations_sum_nonneg {segs : List MotionSegment}
    (h : ∀ seg ∈ segs, 0 ≤ toNumOr0 seg.duration) :
    0 ≤ (segs.map fun seg => toNumOr0 seg.duration).sum := by
  induction segs with
  | nil => simp
  | cons seg rest ih =>
      simp only [List.map_cons, List.sum_cons]
      have h1 := h seg (List.mem_cons_self _ _)
      have h2 := ih fun q hq => h q (List.mem_cons_of_mem _ hq)
      linarith

theorem endAngle_le_sum :
    ∀ (segs : List MotionSegment) (cumA cumL : ℝ),
      (∀ seg ∈ segs, 0 ≤ toNumOr0 seg.duration) →
      ∀ q ∈ processFrom segs cumA cumL,
        q.endAngle ≤ cumA + (segs.map fun seg => toNumOr0 seg.duration).sum := by
  intro segs
  induction segs with
  | nil => intro cumA cumL _ q hq; simp [processFrom] at hq
  | cons seg rest ih =>
      intro cumA cumL hpos q hq
      rw [processFrom] at hq
      simp only [List.map_cons, List.sum_cons]
      have hrest : ∀ s ∈ rest, 0 ≤ toNumOr0 s.duration :=
        fun s hs => hpos s (List.mem_cons_of_mem _ hs)
      rcases List.mem_cons.mp hq with hq | hq
      · subst hq
        have := durations_sum_nonneg hrest
        simp only
        linarith
      · have := ih (cumA + toNumOr0 seg.duration) (cumL + toNumOr0 seg.deltaLift)
          hrest q hq
        linarith

theorem finalLiftOf_cons (p : ProcSeg) (tail : List ProcSeg) (h : tail ≠ []) :
    finalLiftOf (p :: tail) = finalLiftOf tail := by
  cases tail with
  | nil => exact absurd rfl h
  | cons q rest =>
      unfold finalLiftOf
      rw [List.getLast?_cons_cons]

theorem lastEndOf_cons (p : ProcSeg) (tail : List ProcSeg) (h : tail ≠ []) :
    lastEndOf (p :: tail) = lastEndOf tail := by
  cases tail with
  | nil => exact absurd rfl h
  | cons q rest =>
      unfold lastEndOf
      rw [List.getLast?_cons_cons]

theorem finalLift_processFrom :
    ∀ (segs : List MotionSegment) (cumA cumL : ℝ), segs ≠ [] →
      finalLiftOf (processFrom segs cumA cumL) =
        cumL + (segs.map fun seg => toNumOr0 seg.deltaLift).sum := by
  intro segs
  induction segs with
  | nil => intro _ _ h; exact absurd rfl h
  | cons seg rest ih =>
      intro cumA cumL _
      rw [processFrom]
      cases rest with
      | nil =>
          simp only [processFrom, finalLiftOf, List.getLast?_singleton, List.map_cons,
            List.map_nil, List.sum_cons, List.sum_nil]
          ring
      | cons seg2 rest2 =>
          have hne : (seg2 :: rest2 : List MotionSegment) ≠ [] := by simp
          have htail : processFrom (seg2 :: rest2) (cumA + toNumOr0 seg.duration)
              (cumL + toNumOr0 seg.deltaLift) ≠ [] := by
            intro hcontra
            have := processFrom_length (seg2 :: rest2)
              (cumA + toNumOr0 seg.duration) (cumL + toNumOr0 seg.deltaLift)
            rw [hcontra] at this
            simp at this
          rw [finalLiftOf_cons _ _ htail, ih _ _ hne]
          simp only [List.map_cons, List.sum_cons]
          ring

theorem finalLift_eq_sum (segs : List MotionSegment) :
    finalLiftOf (processSegments segs) =
      (segs.map fun seg => toNumOr0 seg.deltaLift).sum := by
  cases segs with
  | nil => simp [processSegments, processFrom, finalLiftOf]
  | cons seg rest =>
      unfold processSegments
      rw [finalLift_processFrom _ 0 0 (by simp)]
      ring

theorem lastEnd_processFrom :
    ∀ (segs : List MotionSegment) (cumA cumL : ℝ), segs ≠ [] →
      lastEndOf (processFrom segs cumA cumL) =
        cumA + (segs.map fun seg => toNumOr0 seg.duration).sum := by
  intro segs
  induction segs with
  | nil => intro _ _ h; exact absurd rfl h
  | cons seg rest ih =>
      intro cumA cumL _
      rw [processFrom]
      cases rest with
      | nil =>
          simp only [processFrom, lastEndOf, List.getLast?_singleton, List.map_cons,
            List.map_nil, List.sum_cons, List.sum_nil]
          ring
      | cons seg2 rest2 =>
          have hne : (seg2 :: rest2 : List MotionSegment) ≠ [] := by simp
          have htail : processFrom (seg2 :: rest2) (cumA + toNumOr0 seg.duration)
              (cumL + toNumOr0 seg.deltaLift) ≠ [] := by
            intro hcontra
            have := processFrom_length (seg2 :: rest2)
              (cumA + toNumOr0 seg.duration) (cumL + toNumOr0 seg.deltaLift)
            rw [hcontra] at this
            simp at this
          rw [lastEndOf_cons _ _ htail, ih _ _ hne]
          simp only [List.map_cons, List.sum_cons]
          ring

theorem lastEnd_eq_sum (segs : List MotionSegment) :
    lastEndOf (processSegments segs) =
      (segs.map fun seg => toNumOr0 seg.duration).sum := by
  cases segs with
  | nil => simp [processSegments, processFrom, lastEndOf]
  | cons seg rest =>
      unfold processSegments
      rw [lastEnd_processFrom _ 0 0 (by simp)]
      ring

theorem endAngle_le_lastEnd {segs : List MotionSegment}
    (hpos : ∀ seg ∈ segs, 0 ≤ toNumOr0 seg.duration) :
    ∀ q ∈ processSegments segs, q.endAngle ≤ lastEndOf (processSegments segs) := by
  intro q hq
  rw [lastEnd_eq_sum]
  have := endAngle_le_sum segs 0 0 hpos q hq
  linarith

theorem processFrom_get :
    ∀ (segs : List MotionSegment) (cumA cumL : ℝ) (i : ℕ)
      (hi : i < segs.length) (hj : i < (processFrom segs cumA cumL).length),
      ((processFrom segs cumA cumL).get ⟨i, hj⟩).durationVal =
          toNumOr0 ((segs.get ⟨i, hi⟩).duration) ∧
      ((processFrom segs cumA cumL).get ⟨i, hj⟩).deltaLiftVal =
          toNumOr0 ((segs.get ⟨i, hi⟩).deltaLift) ∧
      ((processFrom segs cumA cumL).get ⟨i, hj⟩).endAngle =
          ((processFrom segs cumA cumL).get ⟨i, hj⟩).startAngle +
          toNumOr0 ((segs.get ⟨i, hi⟩).duration) ∧
      ((processFrom segs cumA cumL).get ⟨i, hj⟩).endLift =
          ((processFrom segs cumA cumL).get ⟨i, hj⟩).startLift +
          toNumOr0 ((segs.get ⟨i, hi⟩).deltaLift) := by
  intro segs
  induction segs with
  | nil => intro _ _ i hi _; simp at hi
  | cons seg rest ih =>
      intro cumA cumL i hi hj
      cases i with
      | zero => exact ⟨rfl, rfl, rfl, rfl⟩
      | succ k =>
          have hk : k < rest.length := by
            simpa [List.length_cons, Nat.succ_lt_succ_iff] using hi
          have hk2 : k < (processFrom rest (cumA + toNumOr0 seg.duration)
              (cumL + toNumOr0 seg.deltaLift)).length := by
            rw [processFrom_length]
            exact hk
          exact ih (cumA + toNumOr0 seg.duration) (cumL + toNumOr0 seg.deltaLift)
            k hk hk2

theorem calculateMotion_map_theta (segs : List MotionSegment) (step : ℝ) :
    (calculateMotion segs step).map SimulationPoint.theta =
      thetaList step (calcFuel step) 0 := by
  unfold calculateMotion
  exact runLoop_map_theta _ _ _ _ _ _

theorem sampleCount_zero (step : ℝ) :
    sampleCount step 0 = (Int.floor ((360 + epsilonR) / step)).toNat + 1 := by
  unfold sampleCount
  rw [if_pos (by linarith [epsilonR_pos] : (0 : ℝ) ≤ 360 + epsilonR), sub_zero]

theorem calculateMotion_length (segs : List MotionSegment) (step : ℝ)
    (hstep : 0 < step) :
    (calculateMotion segs step).length =
      (Int.floor ((360 + epsilonR) / step)).toNat + 1 := by
  have hmap := calculateMotion_map_theta segs step
  have hlen : (calculateMotion segs step).length =
      (thetaList step (calcFuel step) 0).length := by
    rw [← hmap, List.length_map]
  rw [hlen, thetaList_length hstep, sampleCount_zero]
  unfold calcFuel
  omega

theorem runLoop_cons (segs : List ProcSeg) (fl step : ℝ) (fuel : ℕ)
    (theta : ℝ) (idx : ℕ) (h : theta ≤ 360 + epsilonR) :
    runLoop segs fl step (fuel + 1) theta idx =
      (mkPoint segs fl (advanceCursor segs (min theta 360) idx) (min theta 360) ::
        (runLoop segs fl step fuel (theta + step)
          (advanceCursor segs (min theta 360) idx)).1,
       (runLoop segs fl step fuel (theta + step)
          (advanceCursor segs (min theta 360) idx)).2) := by
  rw [runLoop, if_pos h]

theorem runLoop_stop (segs : List ProcSeg) (fl step : ℝ) (fuel : ℕ)
    (theta : ℝ) (idx : ℕ) (h : ¬ theta ≤ 360 + epsilonR) :
    runLoop segs fl step (fuel + 1) theta idx = ([], true) := by
  rw [runLoop, if_neg h]

theorem no_halt_of_nonpos (segs : List MotionSegment) {step : ℝ}
    (hs : step ≤ 0) : ¬ calcTerminates segs step := by
  rintro ⟨fuel, hf⟩
  have := runLoop_flag_false (processSegments segs)
    (finalLiftOf (processSegments segs)) step hs fuel 0 0
    (by linarith [epsilonR_pos])
  rw [this] at hf
  exact Bool.false_ne_true hf

/-! Claim theorems. -/

/-- C1 (amended): for every segment list and every positive angularStep,
`calculateMotion` returns a sequence of total length
`⌊(360 + ε)/angularStep⌋ + 1` (the loop condition is
`theta ≤ 360 + ε`, so this equals `⌈360/angularStep⌉ + 1` only when the
step divides 360 and is at most 360), sorted by strictly increasing θ
provided `angularStep > ε`, with every output θ in `[0, 360]` inclusive
(θ is clamped to 360 when the iteration overshoots by at most ε). -/
theorem calculateMotion_sampling_grid (segs : List MotionSegment) (step : ℝ)
    (hstep : 0 < step) :
    (calculateMotion segs step).length =
        (Int.floor ((360 + epsilonR) / step)).toNat + 1 ∧
    (epsilonR < step →
      List.Chain' (· < ·)
        ((calculateMotion segs step).map SimulationPoint.theta)) ∧
    ∀ p ∈ calculateMotion segs step, 0 ≤ p.theta ∧ p.theta ≤ 360 := by
  refine ⟨calculateMotion_length segs step hstep, ?_, ?_⟩
  · intro he
    rw [calculateMotion_map_theta]
    exact thetaList_chain he _ _
  · intro p hp
    have hmem : p.theta ∈ (calculateMotion segs step).map SimulationPoint.theta :=
      List.mem_map_of_mem _ hp
    rw [calculateMotion_map_theta] at hmem
    exact thetaList_range hstep _ 0 le_rfl p.theta hmem

/-- C1 witness: the amended grid property evaluated at step 90 with no
segments. -/
theorem calculateMotion_sampling_grid_witness :
    (0 : ℝ) < 90 ∧
    ((calculateMotion [] 90).length =
        (Int.floor ((360 + epsilonR) / 90)).toNat + 1 ∧
     (epsilonR < 90 →
       List.Chain' (· < ·)
         ((calculateMotion [] 90).map SimulationPoint.theta)) ∧
     ∀ p ∈ calculateMotion [] 90, 0 ≤ p.theta ∧ p.theta ≤ 360) :=
  ⟨by norm_num, calculateMotion_sampling_grid [] 90 (by norm_num)⟩

/-- C1 counterexample: at angularStep 720 (a positive step) the output has
exactly 1 point while the claimed length `⌈360/720⌉ + 1` is 2, so the claimed
length formula fails. -/
theorem calculateMotion_length_cex :
    (calculateMotion [] 720).length = 1 ∧
    (Int.ceil ((360 : ℝ) / 720)).toNat + 1 = 2 ∧
    ¬ ((calculateMotion [] 720).length =
        (Int.ceil ((360 : ℝ) / 720)).toNat + 1) := by
  have hfl : Int.floor ((360 + epsilonR) / 720) = 0 := by
    rw [Int.floor_eq_zero_iff]
    constructor
    · unfold epsilonR; norm_num
    · unfold epsilonR; norm_num
  have hlen := calculateMotion_length [] 720 (by norm_num)
  rw [hfl] at hlen
  have hceil : Int.ceil ((360 : ℝ) / 720) = 1 := by
    rw [Int.ceil_eq_iff]
    norm_num
  refine ⟨by rw [hlen]; rfl, by rw [hceil]; rfl, ?_⟩
  rw [hlen, hceil]
  norm_num

/-- C4 counterexample: the Dwell kernel returns displacement factor 0 at
`u = 1`, not 1, so the claim fails for the Dwell motion law. -/
theorem getMotionFactors_dwell_cex :
    (getMotionFactors MotionType.dwell 1).1 = 0 ∧
    ¬ ((getMotionFactors MotionType.dwell 1).1 = 1) := by
  unfold getMotionFactors
  norm_num

/-- C4 (amended): for every motion-law kind except Dwell, the normalized
displacement factor satisfies `σ(0) = 0` and `σ(1) = 1`; Dwell returns the
constant factor 0. -/
theorem getMotionFactors_boundary (t : MotionType)
    (h : t ≠ MotionType.dwell) :
    (getMotionFactors t 0).1 = 0 ∧ (getMotionFactors t 1).1 = 1 := by
  cases t with
  | dwell => exact absurd rfl h
  | uniform => exact ⟨rfl, rfl⟩
  | parabolic =>
      constructor
      · unfold getMotionFactors
        rw [if_pos (by norm_num : (0 : ℝ) ≤ 1 / 2)]
        norm_num
      · unfold getMotionFactors
        rw [if_neg (by norm_num : ¬ (1 : ℝ) ≤ 1 / 2)]
        norm_num
  | harmonic =>
      constructor
      · unfold getMotionFactors
        simp
      · unfold getMotionFactors
        simp [Real.cos_pi]
        norm_num
  | cycloidal =>
      constructor
      · unfold getMotionFactors
        simp
      · unfold getMotionFactors
        simp [Real.sin_two_pi]
  | polynomial345 =>
      constructor
      · unfold getMotionFactors
        norm_num
      · unfold getMotionFactors
        norm_num

/-- C4 witness: the boundary property evaluated at the Uniform law. -/
theorem getMotionFactors_boundary_witness :
    MotionType.uniform ≠ MotionType.dwell ∧
    ((getMotionFactors MotionType.uniform 0).1 = 0 ∧
     (getMotionFactors MotionType.uniform 1).1 = 1) :=
  ⟨by decide, getMotionFactors_boundary MotionType.uniform (by decide)⟩

/-- C5: `calculateMotion` performs no validation of its step size and has no
error channel; called with `angularStep = 0`, the sampling loop's exit test
fails at every iteration (the termination flag stays false for every fuel), so
the run never completes and no failure is surfaced to the caller,
contradicting the claimed surfaced-failure policy. -/
theorem calculateMotion_zero_step_no_exit :
    (∀ fuel : ℕ,
      (runLoop (processSegments []) (finalLiftOf (processSegments []))
        0 fuel 0 0).2 = false) ∧ ¬ calcTerminates [] 0 := by
  constructor
  · intro fuel
    exact runLoop_flag_false _ _ _ le_rfl fuel 0 0 (by linarith [epsilonR_pos])
  · exact no_halt_of_nonpos [] le_rfl

/-- C6: for every segment list and positive angularStep the sampling loop
terminates: its exit test succeeds within `calcFuel step` iterations. -/
theorem calculateMotion_loop_halts (segs : List MotionSegment) (step : ℝ)
    (h : 0 < step) : calcTerminates segs step := by
  refine ⟨calcFuel step, ?_⟩
  apply runLoop_flag_true _ _ _ h
  rw [sampleCount_zero]
  unfold calcFuel
  omega

/-- C6 witness: termination at step 1 with no segments. -/
theorem calculateMotion_loop_halts_witness :
    (0 : ℝ) < 1 ∧ calcTerminates [] 1 :=
  ⟨by norm_num, calculateMotion_loop_halts [] 1 (by norm_num)⟩

/-- C7: the state-passing embedding of `calculateMotion` leaves the caller's
segment heap unchanged and computes exactly the pure batch function of the
read segment values: the engine only reads its input (`segments.map` over
object-spread copies) and never mutates the caller's array or its segment
objects. -/
theorem calculateMotionSt_no_mutation (h : SegHeap) (refs : List ℕ)
    (step : ℝ) :
    (calculateMotionSt h refs step).1 = h ∧
    (calculateMotionSt h refs step).2 =
      calculateMotion (refs.map fun r => (readCell h r).getD defaultSeg) step :=
  ⟨rfl, rfl⟩

/-- C8: the oscillating-roller reference half-angle: the acos argument from
the closing triangle at θ = 0 is clamped to `[-1, 1]` before evaluation, so
`φ0` is a well-defined angle in `[0, π]` whose cosine is the clamped
argument, for every geometry with `r1·r3 ≠ 0` (in IEEE arithmetic
`r1·r3 = 0` would make the quotient NaN or infinite before clamping). -/
theorem oscRollerPhi0_defined (r1 r3 rb r0 : ℝ) (h : r1 * r3 ≠ 0) :
    -1 ≤ max (-1) (min 1 ((r1 ^ 2 + r3 ^ 2 - (rb + r0) ^ 2) / (2 * r1 * r3))) ∧
    max (-1) (min 1 ((r1 ^ 2 + r3 ^ 2 - (rb + r0) ^ 2) / (2 * r1 * r3))) ≤ 1 ∧
    0 ≤ oscRollerPhi0 r1 r3 rb r0 ∧
    oscRollerPhi0 r1 r3 rb r0 ≤ Real.pi ∧
    Real.cos (oscRollerPhi0 r1 r3 rb r0) =
      max (-1) (min 1 ((r1 ^ 2 + r3 ^ 2 - (rb + r0) ^ 2) / (2 * r1 * r3))) := by
  have h1 : (-1 : ℝ) ≤
      max (-1) (min 1 ((r1 ^ 2 + r3 ^ 2 - (rb + r0) ^ 2) / (2 * r1 * r3))) :=
    le_max_left _ _
  have h2 : max (-1) (min 1
      ((r1 ^ 2 + r3 ^ 2 - (rb + r0) ^ 2) / (2 * r1 * r3))) ≤ 1 :=
    max_le (by norm_num) (min_le_left _ _)
  exact ⟨h1, h2, Real.arccos_nonneg _, Real.arccos_le_pi _,
    Real.cos_arccos h1 h2⟩

/-- C8 witness: the default app geometry `r1 = 80, r3 = 60, rb = 40,
r0 = 10`. -/
theorem oscRollerPhi0_defined_witness :
    (80 : ℝ) * 60 ≠ 0 ∧
    (-1 ≤ max (-1) (min 1
        ((80 ^ 2 + 60 ^ 2 - ((40 : ℝ) + 10) ^ 2) / (2 * 80 * 60))) ∧
     max (-1) (min 1
        ((80 ^ 2 + 60 ^ 2 - ((40 : ℝ) + 10) ^ 2) / (2 * 80 * 60))) ≤ 1 ∧
     0 ≤ oscRollerPhi0 80 60 40 10 ∧
     oscRollerPhi0 80 60 40 10 ≤ Real.pi ∧
     Real.cos (oscRollerPhi0 80 60 40 10) =
       max (-1) (min 1
        ((80 ^ 2 + 60 ^ 2 - ((40 : ℝ) + 10) ^ 2) / (2 * 80 * 60)))) :=
  ⟨by norm_num, oscRollerPhi0_defined 80 60 40 10 (by norm_num)⟩

/-- C2 (confirmed with the data-model reading): for every segment list with
nonnegative coerced durations summing to less than 360, every output point
whose angle exceeds the last segment's end angle by more than the tolerance ε
carries the final cumulative lift (the sum of the coerced deltaLifts) with
zero velocity, acceleration and jerk, and the run still produces the full
sample grid up to 360. -/
theorem calculateMotion_tail_policy (segs : List MotionSegment) (step : ℝ)
    (hstep : 0 < step)
    (hpos : ∀ seg ∈ segs, 0 ≤ toNumOr0 seg.duration)
    (hsum : (segs.map fun seg => toNumOr0 seg.duration).sum < 360)
    (p : SimulationPoint) (hp : p ∈ calculateMotion segs step)
    (hbeyond : lastEndOf (processSegments segs) + epsilonR < p.theta) :
    p.s = (segs.map fun seg => toNumOr0 seg.deltaLift).sum ∧
    p.v = 0 ∧ p.a = 0 ∧ p.j = 0 ∧
    (calculateMotion segs step).length =
      (Int.floor ((360 + epsilonR) / step)).toNat + 1 := by
  unfold calculateMotion at hp
  obtain ⟨i, hi, hpeq⟩ := mem_runLoop (processSegments segs)
    (finalLiftOf (processSegments segs)) step (calcFuel step) 0 0
    (Nat.zero_le _) p hp
  have hall : ∀ q ∈ processSegments segs, q.endAngle + epsilonR < p.theta := by
    intro q hq
    have h2 := endAngle_le_lastEnd hpos q hq
    linarith
  have hidx : advanceCursor (processSegments segs) p.theta i =
      (processSegments segs).length :=
    advanceCursor_runs_off _ _ hall i hi
  have hs : p.s = finalLiftOf (processSegments segs) := by
    rw [hpeq, hidx]
    unfold mkPoint
    rw [dif_neg (lt_irrefl _)]
  have hzero : p.v = 0 ∧ p.a = 0 ∧ p.j = 0 := by
    rw [hpeq, hidx]
    unfold mkPoint
    rw [dif_neg (lt_irrefl _)]
    exact ⟨rfl, rfl, rfl⟩
  exact ⟨by rw [hs, finalLift_eq_sum], hzero.1, hzero.2.1, hzero.2.2,
    calculateMotion_length segs step hstep⟩

/-- C3: a point emitted for an angle inside the active segment (cursor index
within the list) has exactly the claimed form: normalized time
`u = clamp((θ - startAngle)/β, 0, 1)` (with `u = 0` when β is within the
tolerance ε of zero), `s = startLift + h·σ(u)`, `v = h/βr·σ′(u)`,
`a = h/βr²·σ″(u)`, `j = h/βr³·σ‴(u)` with `βr = β·π/180`, and `v, a, j`
exactly 0 whenever `βr < ε`. -/
theorem mkPoint_active_formula (segs : List ProcSeg) (fl : ℝ) (idx : ℕ)
    (ct : ℝ) (h : idx < segs.length) (seg : ProcSeg)
    (hseg : segs.get ⟨idx, h⟩ = seg) :
    mkPoint segs fl idx ct =
      let u : ℝ := if epsilonR < seg.durationVal then
          max 0 (min 1 ((ct - seg.startAngle) / seg.durationVal)) else 0
      let br : ℝ := seg.durationVal * (Real.pi / 180)
      let f := getMotionFactors seg.type u
      SimulationPoint.mk ct
        (seg.startLift + seg.deltaLiftVal * f.1)
        (if br < epsilonR then 0 else seg.deltaLiftVal / br * f.2.1)
        (if br < epsilonR then 0 else seg.deltaLiftVal / br ^ 2 * f.2.2.1)
        (if br < epsilonR then 0 else seg.deltaLiftVal / br ^ 3 * f.2.2.2)
        0 0 0 0 := by
  subst hseg
  unfold mkPoint
  rw [dif_pos h]
  dsimp only
  by_cases hb : epsilonR < (segs.get ⟨idx, h⟩).durationVal
  · rw [if_pos hb, if_pos hb, pow_two]
  · rw [if_neg hb, if_neg hb, min_eq_right zero_le_one, max_self, pow_two]

/-- C9: every point produced by `calculateMotion` has its geometric fields
zeroed: `x = 0`, `y = 0`, `pressureAngle = 0`, `radiusOfCurvature = 0` are
placeholders until the cam-profile synthesizer runs. -/
theorem calculateMotion_geometry_zero (segs : List MotionSegment) (step : ℝ)
    (p : SimulationPoint) (hp : p ∈ calculateMotion segs step) :
    p.x = 0 ∧ p.y = 0 ∧ p.pressureAngle = 0 ∧ p.radiusOfCurvature = 0 := by
  unfold calculateMotion at hp
  obtain ⟨i, hi, hpeq⟩ := mem_runLoop (processSegments segs)
    (finalLiftOf (processSegments segs)) step (calcFuel step) 0 0
    (Nat.zero_le _) p hp
  rw [hpeq]
  exact mkPoint_geom _ _ _ _

/-- C10: a segment whose `duration` and `deltaLift` coerce to NaN is
preprocessed with both values coerced to 0, so it spans no angle and changes
no lift, and the run still completes for every positive step. -/
theorem processSegments_nan_coerced (segs : List MotionSegment) (i : ℕ)
    (hi : i < segs.length)
    (hdur : (segs.get ⟨i, hi⟩).duration = JSVal.nan)
    (hdl : (segs.get ⟨i, hi⟩).deltaLift = JSVal.nan) :
    ∃ hj : i < (processSegments segs).length,
      ((processSegments segs).get ⟨i, hj⟩).durationVal = 0 ∧
      ((processSegments segs).get ⟨i, hj⟩).deltaLiftVal = 0 ∧
      ((processSegments segs).get ⟨i, hj⟩).endAngle =
        ((processSegments segs).get ⟨i, hj⟩).startAngle ∧
      ((processSegments segs).get ⟨i, hj⟩).endLift =
        ((processSegments segs).get ⟨i, hj⟩).startLift ∧
      ∀ step : ℝ, 0 < step → calcTerminates segs step := by
  unfold processSegments
  have hj : i < (processFrom segs 0 0).length := by
    rw [processFrom_length]
    exact hi
  obtain ⟨h1, h2, h3, h4⟩ := processFrom_get segs 0 0 i hi hj
  refine ⟨hj, ?_, ?_, ?_, ?_, ?_⟩
  · rw [h1, hdur]; rfl
  · rw [h2, hdl]; rfl
  · rw [h3, hdur]
    simp [toNumOr0]
  · rw [h4, hdl]
    simp [toNumOr0]
  · intro step hstep
    refine ⟨calcFuel step, ?_⟩
    apply runLoop_flag_true _ _ _ hstep
    rw [sampleCount_zero]
    unfold calcFuel
    omega

theorem floor_360_div : Int.floor ((360 + epsilonR) / 360) = 1 := by
  rw [Int.floor_eq_iff]
  constructor
  · unfold epsilonR; norm_num
  · unfold epsilonR; norm_num

theorem calcFuel_360 : calcFuel 360 = 3 := by
  unfold calcFuel
  rw [floor_360_div]
  rfl

theorem advanceCursor_nil (ct : ℝ) (i : ℕ) : advanceCursor [] ct i = i := by
  rw [advanceCursor]
  simp

theorem mkPoint_nil (fl : ℝ) (i : ℕ) (ct : ℝ) :
    mkPoint [] fl i ct = SimulationPoint.mk ct fl 0 0 0 0 0 0 0 := by
  unfold mkPoint
  rw [dif_neg (by simp)]

theorem calculateMotion_nil_360 :
    calculateMotion [] 360 =
      [SimulationPoint.mk 0 0 0 0 0 0 0 0 0,
       SimulationPoint.mk 360 0 0 0 0 0 0 0 0] := by
  unfold calculateMotion
  rw [calcFuel_360]
  have hps : processSegments [] = [] := rfl
  have hfl : finalLiftOf ([] : List ProcSeg) = 0 := rfl
  rw [hps, hfl]
  rw [show (3 : ℕ) = 2 + 1 from rfl,
    runLoop_cons [] 0 360 2 0 0 (by linarith [epsilonR_pos])]
  rw [show (2 : ℕ) = 1 + 1 from rfl,
    runLoop_cons [] 0 360 1 (0 + 360) _ (by unfold epsilonR; norm_num)]
  rw [runLoop_stop [] 0 360 0 (0 + 360 + 360) _ (by unfold epsilonR; norm_num)]
  simp only [advanceCursor_nil, mkPoint_nil]
  norm_num

/-- C9 witness: the first output point of a run with no segments at step
360. -/
theorem calculateMotion_geometry_zero_witness :
    (SimulationPoint.mk 0 0 0 0 0 0 0 0 0 ∈ calculateMotion [] 360) ∧
    ((SimulationPoint.mk 0 0 0 0 0 0 0 0 0).x = 0 ∧
     (SimulationPoint.mk 0 0 0 0 0 0 0 0 0).y = 0 ∧
     (SimulationPoint.mk 0 0 0 0 0 0 0 0 0).pressureAngle = 0 ∧
     (SimulationPoint.mk 0 0 0 0 0 0 0 0 0).radiusOfCurvature = 0) := by
  have hmem : SimulationPoint.mk 0 0 0 0 0 0 0 0 0 ∈ calculateMotion [] 360 := by
    rw [calculateMotion_nil_360]
    exact List.mem_cons_self _ _
  exact ⟨hmem, calculateMotion_geometry_zero [] 360 _ hmem⟩

/-- C3 witness: the uniform full-circle segment evaluated at θ = 180. -/
theorem mkPoint_active_formula_witness :
    0 < ([uniSeg] : List ProcSeg).length ∧
    ([uniSeg].get ⟨0, by simp⟩ = uniSeg) ∧
    (mkPoint [uniSeg] 0 0 180 =
      let u : ℝ := if epsilonR < uniSeg.durationVal then
          max 0 (min 1 ((180 - uniSeg.startAngle) / uniSeg.durationVal)) else 0
      let br : ℝ := uniSeg.durationVal * (Real.pi / 180)
      let f := getMotionFactors uniSeg.type u
      SimulationPoint.mk 180
        (uniSeg.startLift + uniSeg.deltaLiftVal * f.1)
        (if br < epsilonR then 0 else uniSeg.deltaLiftVal / br * f.2.1)
        (if br < epsilonR then 0 else uniSeg.deltaLiftVal / br ^ 2 * f.2.2.1)
        (if br < epsilonR then 0 else uniSeg.deltaLiftVal / br ^ 3 * f.2.2.2)
        0 0 0 0) :=
  ⟨by simp, rfl, mkPoint_active_formula [uniSeg] 0 0 180 (by simp) uniSeg rfl⟩

/-- C10 witness: a singleton list whose segment has NaN duration and
deltaLift. -/
theorem processSegments_nan_coerced_witness :
    (0 < ([nanSeg] : List MotionSegment).length) ∧
    (([nanSeg].get ⟨0, by simp⟩).duration = JSVal.nan) ∧
    (([nanSeg].get ⟨0, by simp⟩).deltaLift = JSVal.nan) ∧
    (∃ hj : 0 < (processSegments [nanSeg]).length,
      ((processSegments [nanSeg]).get ⟨0, hj⟩).durationVal = 0 ∧
      ((processSegments [nanSeg]).get ⟨0, hj⟩).deltaLiftVal = 0 ∧
      ((processSegments [nanSeg]).get ⟨0, hj⟩).endAngle =
        ((processSegments [nanSeg]).get ⟨0, hj⟩).startAngle ∧
      ((processSegments [nanSeg]).get ⟨0, hj⟩).endLift =
        ((processSegments [nanSeg]).get ⟨0, hj⟩).startLift ∧
      ∀ step : ℝ, 0 < step → calcTerminates [nanSeg] step) :=
  ⟨by simp, rfl, rfl,
    processSegments_nan_coerced [nanSeg] 0 (by simp) rfl rfl⟩

theorem processSegments_dwellSeg :
    processSegments [dwellSeg] = [dwellProc] := by
  simp [processSegments, processFrom, dwellSeg, dwellProc, toNumOr0]

theorem finalLiftOf_dwellProc : finalLiftOf [dwellProc] = 0 := by
  simp [finalLiftOf, dwellProc]

theorem advanceCursor_dwellProc_0 : advanceCursor [dwellProc] 0 0 = 0 := by
  rw [advanceCursor]
  rw [dif_pos (by simp : (0 : ℕ) < ([dwellProc] : List ProcSeg).length)]
  rw [if_neg (by norm_num [dwellProc, epsilonR])]

theorem advanceCursor_dwellProc_360 : advanceCursor [dwellProc] 360 0 = 1 := by
  rw [advanceCursor]
  rw [dif_pos (by simp : (0 : ℕ) < ([dwellProc] : List ProcSeg).length)]
  rw [if_pos (by norm_num [dwellProc, epsilonR])]
  rw [advanceCursor]
  rw [dif_neg (by simp)]

theorem mkPoint_dwellProc_0 :
    mkPoint [dwellProc] 0 0 0 = SimulationPoint.mk 0 0 0 0 0 0 0 0 0 := by
  unfold mkPoint
  rw [dif_pos (by simp : (0 : ℕ) < ([dwellProc] : List ProcSeg).length)]
  norm_num [dwellProc, getMotionFactors, epsilonR]

theorem mkPoint_dwellProc_tail :
    mkPoint [dwellProc] 0 1 360 = SimulationPoint.mk 360 0 0 0 0 0 0 0 0 := by
  unfold mkPoint
  rw [dif_neg (by simp)]

theorem calculateMotion_dwellSeg_360 :
    calculateMotion [dwellSeg] 360 =
      [SimulationPoint.mk 0 0 0 0 0 0 0 0 0,
       SimulationPoint.mk 360 0 0 0 0 0 0 0 0] := by
  unfold calculateMotion
  rw [calcFuel_360, processSegments_dwellSeg, finalLiftOf_dwellProc]
  rw [show (3 : ℕ) = 2 + 1 from rfl,
    runLoop_cons [dwellProc] 0 360 2 0 0 (by linarith [epsilonR_pos])]
  rw [show (2 : ℕ) = 1 + 1 from rfl,
    runLoop_cons [dwellProc] 0 360 1 (0 + 360) _ (by unfold epsilonR; norm_num)]
  rw [runLoop_stop [dwellProc] 0 360 0 (0 + 360 + 360) _
    (by unfold epsilonR; norm_num)]
  have hmin1 : min (0 : ℝ) 360 = 0 := by norm_num
  have hadd1 : (0 : ℝ) + 360 = 360 := by norm_num
  simp only [hmin1, hadd1, min_self, advanceCursor_dwellProc_0,
    advanceCursor_dwellProc_360, mkPoint_dwellProc_0, mkPoint_dwellProc_tail]

/-- C2 witness: a single zero-length dwell segment at step 360; the point at
θ = 360 lies beyond the (empty) covered range and carries the final lift 0
with zero derivatives. -/
theorem calculateMotion_tail_policy_witness :
    (0 : ℝ) < 360 ∧
    (∀ seg ∈ [dwellSeg], 0 ≤ toNumOr0 seg.duration) ∧
    (([dwellSeg].map fun seg => toNumOr0 seg.duration).sum < 360) ∧
    (SimulationPoint.mk 360 0 0 0 0 0 0 0 0 ∈ calculateMotion [dwellSeg] 360) ∧
    (lastEndOf (processSegments [dwellSeg]) + epsilonR <
      (SimulationPoint.mk 360 0 0 0 0 0 0 0 0).theta) ∧
    ((SimulationPoint.mk 360 0 0 0 0 0 0 0 0).s =
        ([dwellSeg].map fun seg => toNumOr0 seg.deltaLift).sum ∧
     (SimulationPoint.mk 360 0 0 0 0 0 0 0 0).v = 0 ∧
     (SimulationPoint.mk 360 0 0 0 0 0 0 0 0).a = 0 ∧
     (SimulationPoint.mk 360 0 0 0 0 0 0 0 0).j = 0 ∧
     (calculateMotion [dwellSeg] 360).length =
       (Int.floor ((360 + epsilonR) / 360)).toNat + 1) := by
  have hmem : SimulationPoint.mk 360 0 0 0 0 0 0 0 0 ∈
      calculateMotion [dwellSeg] 360 := by
    rw [calculateMotion_dwellSeg_360]
    exact List.mem_cons_of_mem _ (List.mem_cons_self _ _)
  have hbey : lastEndOf (processSegments [dwellSeg]) + epsilonR <
      (SimulationPoint.mk 360 0 0 0 0 0 0 0 0).theta := by
    rw [processSegments_dwellSeg]
    norm_num [lastEndOf, dwellProc, epsilonR]
  exact ⟨by norm_num, by simp [dwellSeg, toNumOr0],
    by norm_num [dwellSeg, toNumOr0], hmem, hbey,
    calculateMotion_tail_policy [dwellSeg] 360 (by norm_num)
      (by simp [dwellSeg, toNumOr0]) (by norm_num [dwellSeg, toNumOr0])
      _ hmem hbey⟩
